import Mathlib

/-!
# Verification of Avrix documentation / firmware-size gate scripts

Shallow embedding of `tests/check_docs.py` and `scripts/size_gate.py`.

Conventions of the embedding:
* Paths are canonical absolute POSIX strings; `Path.resolve()` is the
  identity on them.  The file system is a finite association list from
  path to the file's lines (`read_text().splitlines()`); `Path.exists()`
  is membership.  Entries denote regular files.
* Python `str` operations are modelled character-wise on `List Char`;
  Python's whitespace set is approximated by `Char.isWhitespace`
  (space, tab, CR, LF — the characters that can actually occur inside a
  line produced by `splitlines`).
* Exceptions are modelled with `Except`; recursion of `_walk_refs` is
  modelled with a fuel parameter whose sufficiency (the Python program's
  termination argument) is proved below.
-/

namespace Avrix

/-- Python `str.lstrip()` on a list of characters. -/
def lstripL (l : List Char) : List Char := l.dropWhile Char.isWhitespace

/-- Python `str.strip()` on a list of characters. -/
def stripL (l : List Char) : List Char :=
  ((l.dropWhile Char.isWhitespace).reverse.dropWhile Char.isWhitespace).reverse

/-- Python `str.lstrip()`. -/
def pyLstrip (s : String) : String := ⟨lstripL s.data⟩

/-- Python `str.strip()`. -/
def pyStrip (s : String) : String := ⟨stripL s.data⟩

/-- Python `str.startswith(pre)`. -/
def pyStartsWith (s pre : String) : Bool := pre.data.isPrefixOf s.data

/-- Python `str.endswith(suf)`. -/
def pyEndsWith (s suf : String) : Bool := suf.data.isSuffixOf s.data

/-- Characters of `l` strictly before the first occurrence of the
(nonempty) pattern `pat`; models `str.split(pat, 1)[0]`. -/
def cutAtL (pat : List Char) : List Char → List Char
  | [] => []
  | c :: cs => if pat.isPrefixOf (c :: cs) then [] else c :: cutAtL pat cs

/-- Models `stripped.split("<!--", 1)[0].strip()` — the cleanup applied to a
toctree entry before it is yielded by `_iter_toctree_refs`. -/
def cleanRef (stripped : String) : String :=
  ⟨stripL (cutAtL "<!--".data stripped.data)⟩

/-- The file system: association list from canonical absolute path to the
list of lines of the file. -/
abbrev FS := List (String × List String)

/-- Models `Path(p).read_text().splitlines()`, when the file exists. -/
def lookupFS (fs : FS) (p : String) : Option (List String) := fs.lookup p

/-- Models `Path(p).exists()`. -/
def existsFS (fs : FS) (p : String) : Bool := (lookupFS fs p).isSome

/-- Models `Path(a) / b` (POSIX): an absolute right operand replaces the left. -/
def pjoin (a b : String) : String :=
  if pyStartsWith b "/" then b else a ++ "/" ++ b

/-- State of the `_iter_toctree_refs` line scanner: the `inside` flag and
the established `base_indent` of the current block (if any). -/
structure TocState where
  inside : Bool
  base : Option Nat
deriving DecidableEq, Repr

/-- Processing of one line by `_iter_toctree_refs`: next state and the
entries yielded for this line (`[]` or a singleton). -/
def tocStep (st : TocState) (line : String) : TocState × List String :=
  let stripped := pyLstrip line
  if pyStartsWith stripped ".. toctree::" then (⟨true, none⟩, [])
  else if !st.inside then (st, [])
  else if stripped = "" || pyStartsWith stripped ":" then (st, [])
  else
    match st.base with
    | none => (⟨true, some (line.length - stripped.length)⟩, [cleanRef stripped])
    | some b =>
      if line.length - stripped.length < b then (⟨false, some b⟩, [])
      else (st, [cleanRef stripped])

/-- Models `_iter_toctree_refs`: every raw entry inside all `.. toctree::`
blocks of a file given as its list of lines. -/
def toctreeRefs (lines : List String) : List String :=
  (lines.foldl (fun acc line =>
    let (st, ys) := tocStep acc.1 line
    (st, acc.2 ++ ys)) (⟨false, none⟩, [])).2

/-- Models `PurePosixPath(ref).name`: the last component of the path, dropping
empty and `.` segments (pathlib's normalization). -/
def pyName (ref : String) : String :=
  ⟨((ref.data.splitOn '/').filter (fun seg => seg ≠ [] ∧ seg ≠ ['.'])).getLastD []⟩

/-- Suffix of a pathlib name: with `i` the index of the
last dot of the name, the suffix is `name[i:]` when `0 < i < len-1` and
`''` otherwise. -/
def pySuffixOfName (n : List Char) : List Char :=
  let b := n.reverse.takeWhile (fun c => c ≠ '.')
  if b.length = n.length then []
  else if b.length = 0 then []
  else if b.length + 1 = n.length then []
  else '.' :: b.reverse

/-- Models `Path(ref).suffix`. -/
def pySuffix (ref : String) : String := ⟨pySuffixOfName (pyName ref).data⟩

/-- The child-resolution loop of `_walk_refs`: for each extension in
order, build `docs_dir / (ref if ref.endswith(ext) else ref+ext)` and
return the first candidate that exists. -/
def firstChild (fs : FS) (docsDir : String) (exts : List String) (ref : String) :
    Option String :=
  match exts with
  | [] => none
  | ext :: rest =>
    if existsFS fs (pjoin docsDir (if pyEndsWith ref ext then ref else ref ++ ext)) then
      some (pjoin docsDir (if pyEndsWith ref ext then ref else ref ++ ext))
    else firstChild fs docsDir rest ref

/-- Errors of the walker model: `readFail` is Python's exception on
reading a non-existent root; `fuelOut` is an artefact of the fuel-based
embedding, proved unreachable for the fuel used by `main`. -/
inductive WErr where
  | readFail (p : String)
  | fuelOut
deriving DecidableEq, Repr

/-- A unit of work of `_walk_refs`: visiting a file, or iterating over
the tail of a file's reference list. -/
inductive WMode where
  | visit (root : String)
  | refs (rs : List String)

/-- Models `_walk_refs`, instrumented: returns the collected references, the
final visited set (Python mutates `seen` in place; here it is threaded),
and the chronological list of files parsed (ghost data used to state the
no-reparse property).  `.visit root` is a call `_walk_refs(root, …)`;
`.refs rs` is the `for ref in _iter_toctree_refs(root)` loop over the
remaining entries `rs`. -/
def walkW (fs : FS) (docsDir : String) (recursive : Bool) (exts : List String) :
    Nat → WMode → List String → Except WErr (List String × List String × List String)
  | 0, .visit root, seen =>
    if root ∈ seen then .ok ([], seen, [])
    else
      match lookupFS fs root with
      | none => .error (.readFail root)
      | some _ => .error .fuelOut
  | f + 1, .visit root, seen =>
    if root ∈ seen then .ok ([], seen, [])
    else
      match lookupFS fs root with
      | none => .error (.readFail root)
      | some lines =>
        match walkW fs docsDir recursive exts f (.refs (toctreeRefs lines)) (root :: seen) with
        | .error e => .error e
        | .ok (rs, s, p) => .ok (rs, s, root :: p)
  | _, .refs [], seen => .ok ([], seen, [])
  | 0, .refs (_ :: _), _ => .error .fuelOut
  | f + 1, .refs (ref :: rest), seen =>
    match (if recursive then firstChild fs docsDir exts ref else none) with
    | none =>
      match walkW fs docsDir recursive exts f (.refs rest) seen with
      | .error e => .error e
      | .ok (rs, s, p) => .ok (ref :: rs, s, p)
    | some child =>
      match walkW fs docsDir recursive exts f (.visit child) seen with
      | .error e => .error e
      | .ok (crs, s2, p2) =>
        match walkW fs docsDir recursive exts f (.refs rest) s2 with
        | .error e => .error e
        | .ok (rrs, s3, p3) => .ok (ref :: (crs ++ rrs), s3, p2 ++ p3)

/-- Fuel potential: an upper bound on the number of fuel-consuming steps
the walker can still take when the files in `seen` are already visited. -/
def wPot (fs : FS) (seen : List String) : Nat :=
  ((fs.filter (fun e => decide (e.1 ∉ seen))).map
    (fun e => 1 + (toctreeRefs e.2).length)).sum

/-- The fuel `main`'s invocation of the walker is run with; proved
sufficient below. -/
def fsFuel (fs : FS) : Nat := wPot fs [] + 1

/-- Models `_walk_refs(root, docs_dir=…, recursive=…, exts=…, seen=set())` as
called from `main`: the collected reference list. -/
def walkRefs (fs : FS) (docsDir : String) (recursive : Bool) (exts : List String)
    (root : String) : Except WErr (List String × List String × List String) :=
  walkW fs docsDir recursive exts (fsFuel fs) (.visit root) []

/-- Models `_missing_paths`: every referenced file that cannot be found.  A
reference whose `Path(ref).suffix` is nonempty is checked verbatim;
otherwise each allowed extension is tried and, if none matches, the
candidate `docs_dir / (ref + exts[0])` is recorded.  `.error ()` models
the `IndexError` Python raises at `exts[0]` when `exts` is empty. -/
def missingPaths (fs : FS) (docsDir : String) (exts : List String) :
    List String → Except Unit (List String)
  | [] => .ok []
  | ref :: rest =>
    if pySuffix ref ≠ "" then
      let candidate := pjoin docsDir ref
      match missingPaths fs docsDir exts rest with
      | .error e => .error e
      | .ok ms => .ok (if existsFS fs candidate then ms else candidate :: ms)
    else
      if exts.any (fun ext => existsFS fs (pjoin docsDir (ref ++ ext))) then
        missingPaths fs docsDir exts rest
      else
        match exts with
        | [] => .error ()
        | ext0 :: _ =>
          match missingPaths fs docsDir exts rest with
          | .error e => .error e
          | .ok ms => .ok (pjoin docsDir (ref ++ ext0) :: ms)

/-- CLI extension normalization in `main`:
`ext if ext.startswith(".") else f".{ext}"`. -/
def normExt (ext : String) : String :=
  if pyStartsWith ext "." then ext else "." ++ ext

/-- Models `path.relative_to(docs_dir)` on canonical absolute strings: `none`
models the `ValueError` raised when `path` is not below `docs_dir`. -/
def relativeTo (docsDir p : String) : Option String :=
  if p = docsDir then some "."
  else if pyStartsWith p (docsDir ++ "/") then some (p.drop (docsDir.length + 1))
  else none

/-- The printing loop over the missing paths: all of them relativized,
or `none` as soon as one `relative_to` raises. -/
def relAll (docsDir : String) : List String → Option (List String)
  | [] => some []
  | p :: rest =>
    match relativeTo docsDir p with
    | none => none
    | some r =>
      match relAll docsDir rest with
      | none => none
      | some rs => some (r :: rs)

/-- The body of `check_docs.main` after argument parsing (the `try`
block): returns the exit code together with the relativized missing
paths it printed.  Any modelled exception (reading failure, `exts[0]` on
an empty tuple, `relative_to` outside `docs_dir`) is converted to exit
code 2 by the `except Exception` handler. -/
def cdBody (fs : FS) (docsDir : String) (indexFile : Option String)
    (recursive : Bool) (extsRaw : List String) : Nat × List String :=
  let index := indexFile.getD (pjoin docsDir "index.rst")
  if !existsFS fs index then (2, [])
  else
    let exts := extsRaw.map normExt
    match walkRefs fs docsDir recursive exts index with
    | .error _ => (2, [])
    | .ok (refs, _, _) =>
      match missingPaths fs docsDir exts refs with
      | .error _ => (2, [])
      | .ok [] => (0, [])
      | .ok missing =>
        match relAll docsDir missing with
        | none => (2, [])
        | some rels => (1, rels)

/-- Parsed command-line options of `check_docs.py`.  `argparse` appends
each `-e` value to the default list, so `exts` always starts with
`.rst`. -/
structure CDArgs where
  docsDir : String
  indexFile : Option String
  recursive : Bool
  exts : List String
  quiet : Bool
deriving Repr, DecidableEq

/-- Model of `argparse` for `check_docs.py`'s option set.  `.error c`
is `SystemExit(c)`: code 2 for a parsing error (unknown option, missing
value, stray positional), code 0 for `-h`.  Long options are also
accepted in `--opt=value` form. -/
def parseCD (acc : CDArgs) : List String → Except Nat CDArgs
  | [] => .ok acc
  | tok :: rest =>
    if tok = "-h" ∨ tok = "--help" then .error 0
    else if tok = "-r" ∨ tok = "--recursive" then
      parseCD { acc with recursive := true } rest
    else if tok = "-q" ∨ tok = "--quiet" then
      parseCD { acc with quiet := true } rest
    else if tok = "--docs-dir" then
      match rest with
      | [] => .error 2
      | v :: rest' => parseCD { acc with docsDir := v } rest'
    else if tok = "--index-file" then
      match rest with
      | [] => .error 2
      | v :: rest' => parseCD { acc with indexFile := some v } rest'
    else if tok = "-e" ∨ tok = "--ext" then
      match rest with
      | [] => .error 2
      | v :: rest' => parseCD { acc with exts := acc.exts ++ [v] } rest'
    else if pyStartsWith tok "--docs-dir=" then
      parseCD { acc with docsDir := tok.drop "--docs-dir=".length } rest
    else if pyStartsWith tok "--index-file=" then
      parseCD { acc with indexFile := some (tok.drop "--index-file=".length) } rest
    else if pyStartsWith tok "--ext=" then
      parseCD { acc with exts := acc.exts ++ [tok.drop "--ext=".length] } rest
    else .error 2

/-- Outcome of a `check_docs.main` invocation: a normal return with the
printed missing paths, or an escaping `SystemExit` (raised by
`argparse`; `except Exception` does not catch it). -/
inductive CDHalt where
  | ret (code : Nat) (printed : List String)
  | sysExit (code : Nat)
deriving Repr, DecidableEq

/-- Models `check_docs.main(argv)`: parse the arguments (a `SystemExit` from
`argparse` escapes `main`), then run the body; `defDocs` is the
`DEFAULT_DOCS_DIR` computed from `__file__`. -/
def checkDocsMain (fs : FS) (defDocs : String) (argv : List String) : CDHalt :=
  match parseCD ⟨defDocs, none, false, [".rst"], false⟩ argv with
  | .error c => .sysExit c
  | .ok a =>
    let (code, printed) := cdBody fs a.docsDir a.indexFile a.recursive a.exts
    .ret code printed

/-! ## `scripts/size_gate.py` -/

/-- Exceptions of `flash_usage`: the explicit
`RuntimeError('Unexpected avr-size output …')` raised when the tool
output has fewer than two non-blank lines, and the `ValueError` from
`int(x)` / tuple unpacking on a malformed summary line. -/
inductive FUErr where
  | unexpectedOutput
  | valueError
deriving DecidableEq, Repr

/-- Digits-only parse helper for Python `int(x)`. -/
def digitsToNat : List Char → Option Nat
  | [] => none
  | ds =>
    if ds.all Char.isDigit then
      some (ds.foldl (fun n c => n * 10 + (c.toNat - '0'.toNat)) 0)
    else none

/-- Python `int(x)` on a token: optional surrounding whitespace and
sign, then decimal digits. -/
def pyInt (s : String) : Option Int :=
  match (pyStrip s).data with
  | '-' :: ds => (digitsToNat ds).map (fun n => -(n : Int))
  | '+' :: ds => (digitsToNat ds).map (fun n => (n : Int))
  | ds => (digitsToNat ds).map (fun n => (n : Int))

/-- Python `str.split()` (split on whitespace runs, no empties). -/
def splitWsL (l : List Char) : List (List Char) :=
  let step := fun (c : Char) (st : List Char × List (List Char)) =>
    if c.isWhitespace then
      if st.1 = [] then ([], st.2) else ([], st.1 :: st.2)
    else (c :: st.1, st.2)
  let fin := l.foldr step ([], [])
  if fin.1 = [] then fin.2 else fin.1 :: fin.2

/-- Python `str.split()` on a `String`. -/
def pySplitWs (s : String) : List String := (splitWsL s.data).map String.mk

/-- Models `text, data = (int(x) for x in lines[-1].split()[:2])` and the sum:
the summary-line parsing of `flash_usage`; a malformed line gives the
`ValueError` of `int`/unpacking. -/
def sumTextData (a b : String) : Except FUErr Int :=
  match pyInt a, pyInt b with
  | some x, some y => .ok (x + y)
  | _, _ => .error .valueError

/-- Parsing of the summary line `lines[-1]` by `flash_usage`. -/
def parseSizeLine (last : String) : Except FUErr Int :=
  match (pySplitWs last).take 2 with
  | [a, b] => sumTextData a b
  | _ => .error .valueError

/-- Models `flash_usage`: the flash footprint (text+data) parsed from
the avr-size output, given as the list of lines of its stdout (the
Python local `lines` is written out inline; the unreachable `none` arm
of `getLast?` also maps to the `RuntimeError`). -/
def flash_usage (out : List String) : Except FUErr Int :=
  if (out.filter (fun l => pyStrip l ≠ "")).length < 2 then .error .unexpectedOutput
  else
    match (out.filter (fun l => pyStrip l ≠ "")).getLast? with
    | none => .error .unexpectedOutput
    | some last => parseSizeLine last

/-- The environment of a `size_gate.py` run: the stdout lines of
`avr-size ELF` for each path, and the sorted `dir.rglob('*.elf')`
listing for each directory. -/
structure GateEnv where
  sizeOut : String → List String
  elfsUnder : String → List String

/-- How a `size_gate.main` invocation ended: a normal return, the
`SystemExit` of `parser.error` in explicit mode, or an exception from
`flash_usage` escaping `main` (there is no handler), recorded with the
artifact that raised. -/
inductive GateHalt where
  | ret (code : Nat)
  | usageExit
  | exn (elf : String)
deriving DecidableEq, Repr

/-- Observable outcome of `size_gate.main`: the halt, the stamp file
write (path and exact text) if it happened, and the per-artifact
diagnostic lines on stdout / stderr. -/
structure GateResult where
  halt : GateHalt
  stamp : Option (String × String)
  stdoutLog : List String
  stderrLog : List String
deriving DecidableEq, Repr

/-- The over-limit diagnostic printed to stderr. -/
def failMsg (elf : String) (size limit : Int) : String :=
  "[size-gate] " ++ elf ++ " : " ++ toString size ++ " bytes > " ++ toString limit

/-- The within-limit diagnostic printed to stdout. -/
def okMsg (elf : String) (size : Int) : String :=
  "[size-gate] " ++ elf ++ " : " ++ toString size ++ " bytes OK"

/-- The no-binaries diagnostic of directory-sweep mode. -/
def noElfMsg (d : String) : String :=
  "[size-gate] no ELF binaries found under " ++ d

/-- The `for elf in elfs` loop of `size_gate.main`: threads the running
maximum and status, and collects the stdout/stderr diagnostics; an
exception from `flash_usage` aborts the loop and escapes. -/
def gateLoop (so : String → List String) (limit : Int) :
    List String → Int → Nat → Except String (Int × Nat × List String × List String)
  | [], maxSize, status => .ok (maxSize, status, [], [])
  | elf :: rest, maxSize, status =>
    match flash_usage (so elf) with
    | .error _ => .error elf
    | .ok size =>
      let maxSize' := max maxSize size
      if size > limit then
        match gateLoop so limit rest maxSize' 1 with
        | .error e => .error e
        | .ok (m, st, o, r) => .ok (m, st, o, failMsg elf size limit :: r)
      else
        match gateLoop so limit rest maxSize' status with
        | .error e => .error e
        | .ok (m, st, o, r) => .ok (m, st, okMsg elf size :: o, r)

/-- The tail of `size_gate.main` once the artifact list and stamp path
are fixed: run the loop, then (on normal completion) write
`f'{max_size}\n'` to the stamp path and return the status. -/
def finishGate (env : GateEnv) (limit : Int) (elfs : List String)
    (outPath : String) : GateResult :=
  match gateLoop env.sizeOut limit elfs 0 0 with
  | .error elf => ⟨.exn elf, none, [], []⟩
  | .ok (m, st, o, r) => ⟨.ret st, some (outPath, toString m ++ "\n"), o, r⟩

/-- Models `size_gate.main(argv)` over parsed arguments: `--dir` selects the
directory-sweep mode, otherwise the positional list is `ELF… OUTPUT`
(at least two entries, or `parser.error` exits). -/
def mainGate (env : GateEnv) (limit : Int) (dir : Option String)
    (output : Option String) (positional : List String) : GateResult :=
  match dir with
  | none =>
    if positional.length < 2 then ⟨.usageExit, none, [], []⟩
    else
      let elfs := positional.dropLast
      let outPath := match output with
        | none => positional.getLastD ""
        | some o => o
      finishGate env limit elfs outPath
  | some d =>
    let elfs := env.elfsUnder d
    match elfs with
    | [] => ⟨.ret 1, none, [], [noElfMsg d]⟩
    | _ :: _ =>
      let outPath := match output with
        | none => pjoin d "size_gate.txt"
        | some o => o
      finishGate env limit elfs outPath

/-! ## Auxiliary lemmas -/

theorem firstChild_existsFS {fs : FS} {docsDir : String} {exts : List String}
    {ref c : String} (h : firstChild fs docsDir exts ref = some c) :
    existsFS fs c = true := by
  induction exts with
  | nil => simp [firstChild] at h
  | cons e rest ih =>
    rw [firstChild] at h
    by_cases hx : existsFS fs (pjoin docsDir (if pyEndsWith ref e then ref else ref ++ e)) = true
    · rw [if_pos hx] at h
      cases h
      exact hx
    · rw [if_neg hx] at h
      exact ih h

theorem wPot_cons (e : String × List String) (rest : FS) (seen : List String) :
    wPot (e :: rest) seen =
      (if e.1 ∈ seen then 0 else 1 + (toctreeRefs e.2).length) + wPot rest seen := by
  by_cases h : e.1 ∈ seen <;> simp [wPot, List.filter_cons, h]

theorem wPot_mono {fs : FS} {seen seen' : List String}
    (hsub : ∀ p, p ∈ seen → p ∈ seen') :
    wPot fs seen' ≤ wPot fs seen := by
  induction fs with
  | nil => simp [wPot]
  | cons e rest ih =>
    rw [wPot_cons, wPot_cons]
    by_cases h' : e.1 ∈ seen'
    · by_cases h : e.1 ∈ seen <;> simp [h, h'] <;> omega
    · have h : e.1 ∉ seen := fun hc => h' (hsub _ hc)
      simp [h, h']
      omega

theorem wPot_visit {fs : FS} {root : String} {ls : List String} {seen : List String}
    (hlook : lookupFS fs root = some ls) (hmem : root ∉ seen) :
    1 + (toctreeRefs ls).length + wPot fs (root :: seen) ≤ wPot fs seen := by
  induction fs with
  | nil => simp [lookupFS] at hlook
  | cons e rest ih =>
    obtain ⟨p, l⟩ := e
    by_cases heq : root = p
    · subst heq
      have hl : l = ls := by
        simpa [lookupFS, List.lookup] using hlook
      subst hl
      rw [wPot_cons, wPot_cons]
      have h1 : root ∈ root :: seen := List.mem_cons_self _ _
      have hrest : wPot rest (root :: seen) ≤ wPot rest seen :=
        wPot_mono (fun p hp => List.mem_cons_of_mem _ hp)
      simp only [h1, hmem, if_true, if_false]
      omega
    · have hbeq : (root == p) = false := beq_eq_false_iff_ne.mpr heq
      have hlook' : lookupFS rest root = some ls := by
        simpa [lookupFS, List.lookup, hbeq] using hlook
      have hstep := ih hlook'
      rw [wPot_cons, wPot_cons]
      have hpp : p ∈ root :: seen ↔ p ∈ seen := by
        constructor
        · intro hc
          rcases List.mem_cons.mp hc with h1 | h2
          · exact absurd h1.symm heq
          · exact h2
        · exact fun h => List.mem_cons_of_mem _ h
      by_cases hps : p ∈ seen
      · rw [if_pos (hpp.mpr hps), if_pos hps]
        omega
      · rw [if_neg (fun hc => hps (hpp.mp hc)), if_neg hps]
        omega

/-- Shape invariant of the walker: on success, the returned visited set
is the parsed files (in reverse chronological order) on top of the given
one, no file is parsed twice, and every parsed file was unvisited and
readable. -/
theorem walkW_shape (fs : FS) (dd : String) (rc : Bool) (exts : List String) :
    ∀ fuel mode seen out s p,
      walkW fs dd rc exts fuel mode seen = .ok (out, s, p) →
      s = p.reverse ++ seen ∧ p.Nodup ∧ ∀ q ∈ p, q ∉ seen ∧ (lookupFS fs q).isSome := by
  intro fuel
  induction fuel with
  | zero =>
    intro mode seen out s p h
    match mode with
    | .visit root =>
      simp only [walkW] at h
      split at h
      · cases h
        simp
      · split at h
        · simp at h
        · simp at h
    | .refs [] =>
      simp only [walkW] at h
      cases h
      simp
    | .refs (ref :: rest) =>
      simp only [walkW] at h
      simp at h
  | succ f ih =>
    intro mode seen out s p h
    match mode with
    | .visit root =>
      simp only [walkW] at h
      split at h
      · cases h
        simp
      · rename_i hmem
        split at h
        · simp at h
        · rename_i lines hlook
          split at h
          · simp at h
          · rename_i rs s1 p1 heq
            cases h
            obtain ⟨hs1, hnd1, hfr1⟩ := ih _ _ _ _ _ heq
            refine ⟨?_, ?_, ?_⟩
            · rw [hs1]
              simp [List.append_assoc]
            · refine List.nodup_cons.mpr ⟨?_, hnd1⟩
              intro hc
              exact ((hfr1 _ hc).1) (List.mem_cons_self _ _)
            · intro q hq
              rcases List.mem_cons.mp hq with h1 | h2
              · subst h1
                exact ⟨hmem, by rw [hlook]; rfl⟩
              · have := hfr1 _ h2
                exact ⟨fun hc => this.1 (List.mem_cons_of_mem _ hc), this.2⟩
    | .refs [] =>
      simp only [walkW] at h
      cases h
      simp
    | .refs (ref :: rest) =>
      simp only [walkW] at h
      split at h
      · -- no child to follow: plain recursion on the remaining refs
        split at h
        · simp at h
        · rename_i rs s1 p1 heq
          cases h
          exact ih _ _ _ _ _ heq
      · rename_i child hchild
        split at h
        · simp at h
        · rename_i crs s2 p2 heq2
          split at h
          · simp at h
          · rename_i rrs s3 p3 heq3
            cases h
            obtain ⟨hs2, hnd2, hfr2⟩ := ih _ _ _ _ _ heq2
            obtain ⟨hs3, hnd3, hfr3⟩ := ih _ _ _ _ _ heq3
            refine ⟨?_, ?_, ?_⟩
            · rw [hs3, hs2, List.reverse_append, List.append_assoc]
            · refine List.Nodup.append hnd2 hnd3 ?_
              intro a ha2 ha3
              have : a ∉ s2 := (hfr3 _ ha3).1
              exact this (hs2 ▸ List.mem_append_left _ (List.mem_reverse.mpr ha2))
            · intro q hq
              rcases List.mem_append.mp hq with h2 | h3
              · exact hfr2 _ h2
              · have hq3 := hfr3 _ h3
                refine ⟨fun hc => hq3.1 ?_, hq3.2⟩
                exact hs2 ▸ List.mem_append_right _ hc

/-- Fuel sufficiency condition: enough fuel for the pending work, and
(for a visit) a readable or already-visited root. -/
def wCond (fs : FS) (fuel : Nat) : WMode → List String → Prop
  | .visit root, seen => wPot fs seen ≤ fuel ∧ (root ∈ seen ∨ (lookupFS fs root).isSome)
  | .refs rs, seen => rs.length + wPot fs seen ≤ fuel

/-- Under the sufficiency condition the walker never raises: no
`fuelOut` (the embedding artefact) and no `readFail` (every recursive
visit is guarded by an existence check). -/
theorem walkW_ok (fs : FS) (dd : String) (rc : Bool) (exts : List String) :
    ∀ fuel mode seen, wCond fs fuel mode seen →
      ∃ r, walkW fs dd rc exts fuel mode seen = .ok r := by
  intro fuel
  induction fuel with
  | zero =>
    intro mode seen hc
    match mode with
    | .visit root =>
      obtain ⟨hp, hr⟩ := hc
      by_cases hmem : root ∈ seen
      · exact ⟨([], seen, []), by simp [walkW, hmem]⟩
      · rcases hr with h | h
        · contradiction
        · obtain ⟨ls, hls⟩ := Option.isSome_iff_exists.mp h
          have := wPot_visit hls hmem
          omega
    | .refs [] => exact ⟨([], seen, []), by simp [walkW]⟩
    | .refs (r :: rs) =>
      exfalso
      simp [wCond] at hc
  | succ f ih =>
    intro mode seen hc
    match mode with
    | .visit root =>
      obtain ⟨hp, hr⟩ := hc
      by_cases hmem : root ∈ seen
      · exact ⟨([], seen, []), by simp [walkW, hmem]⟩
      · rcases hr with h | h
        · contradiction
        · obtain ⟨ls, hls⟩ := Option.isSome_iff_exists.mp h
          have hv := wPot_visit hls hmem
          have hcond : wCond fs f (.refs (toctreeRefs ls)) (root :: seen) := by
            simp only [wCond]
            omega
          obtain ⟨⟨rs, s1, p1⟩, heq⟩ := ih _ _ hcond
          exact ⟨(rs, s1, root :: p1), by simp [walkW, hmem, hls, heq]⟩
    | .refs [] => exact ⟨([], seen, []), by simp [walkW]⟩
    | .refs (ref :: rest) =>
      have hlen : rest.length + 1 + wPot fs seen ≤ f + 1 := by
        simpa [wCond] using hc
      cases hch : (if rc then firstChild fs dd exts ref else none) with
      | none =>
        obtain ⟨⟨rs, s1, p1⟩, heq⟩ := ih (.refs rest) seen (by simp [wCond]; omega)
        exact ⟨(ref :: rs, s1, p1), by simp [walkW, hch, heq]⟩
      | some child =>
        have hchildOk : child ∈ seen ∨ (lookupFS fs child).isSome := by
          right
          have hex : existsFS fs child = true := by
            by_cases hrc : rc
            · exact firstChild_existsFS (by simpa [hrc] using hch)
            · simp [hrc] at hch
          simpa [existsFS] using hex
        obtain ⟨⟨crs, s2, p2⟩, heq2⟩ := ih (.visit child) seen ⟨by omega, hchildOk⟩
        obtain ⟨hs2, -, -⟩ := walkW_shape fs dd rc exts _ _ _ _ _ _ heq2
        have hp2 : wPot fs s2 ≤ wPot fs seen := by
          refine wPot_mono ?_
          intro x hx
          rw [hs2]
          exact List.mem_append_right _ hx
        obtain ⟨⟨rrs, s3, p3⟩, heq3⟩ := ih (.refs rest) s2 (by simp [wCond]; omega)
        exact ⟨(ref :: (crs ++ rrs), s3, p2 ++ p3), by simp [walkW, hch, heq2, heq3]⟩

theorem wCond_mono {fs : FS} {f f' : Nat} {mode : WMode} {seen : List String}
    (hc : wCond fs f mode seen) (hle : f ≤ f') : wCond fs f' mode seen := by
  match mode with
  | .visit root =>
    obtain ⟨h1, h2⟩ := hc
    exact ⟨le_trans h1 hle, h2⟩
  | .refs rs =>
    exact le_trans hc hle

theorem walkW_visit_mem (fs : FS) (dd : String) (rc : Bool) (exts : List String)
    {root : String} {seen : List String} (hmem : root ∈ seen) :
    ∀ fuel, walkW fs dd rc exts fuel (.visit root) seen = .ok ([], seen, []) := by
  intro fuel
  cases fuel <;> simp [walkW, hmem]

theorem walkW_visit_nofile (fs : FS) (dd : String) (rc : Bool) (exts : List String)
    {root : String} {seen : List String} (hmem : root ∉ seen)
    (hlook : lookupFS fs root = none) :
    ∀ fuel, walkW fs dd rc exts fuel (.visit root) seen = .error (.readFail root) := by
  intro fuel
  cases fuel <;> simp [walkW, hmem, hlook]

/-- One-step computation rule for a proper visit. -/
theorem walkW_visit_eq (fs : FS) (dd : String) (rc : Bool) (exts : List String)
    (f : Nat) {root : String} {ls : List String} {seen : List String}
    (hmem : root ∉ seen) (hls : lookupFS fs root = some ls) :
    walkW fs dd rc exts (f + 1) (.visit root) seen =
      (walkW fs dd rc exts f (.refs (toctreeRefs ls)) (root :: seen)).map
        (fun r => (r.1, r.2.1, root :: r.2.2)) := by
  simp only [walkW, hls]
  rw [if_neg hmem]
  cases walkW fs dd rc exts f (.refs (toctreeRefs ls)) (root :: seen) with
  | error e => rfl
  | ok r => obtain ⟨a, b, c⟩ := r; rfl

/-- One-step computation rule for a reference with no resolvable child. -/
theorem walkW_refs_none (fs : FS) (dd : String) (rc : Bool) (exts : List String)
    (f : Nat) {ref : String} {rest seen : List String}
    (hch : (if rc then firstChild fs dd exts ref else none) = none) :
    walkW fs dd rc exts (f + 1) (.refs (ref :: rest)) seen =
      (walkW fs dd rc exts f (.refs rest) seen).map
        (fun r => (ref :: r.1, r.2.1, r.2.2)) := by
  simp only [walkW, hch]
  cases walkW fs dd rc exts f (.refs rest) seen with
  | error e => rfl
  | ok r => obtain ⟨a, b, c⟩ := r; rfl

/-- One-step computation rule for a reference whose child resolves. -/
theorem walkW_refs_some (fs : FS) (dd : String) (rc : Bool) (exts : List String)
    (f : Nat) {ref child : String} {rest seen : List String}
    (hch : (if rc then firstChild fs dd exts ref else none) = some child) :
    walkW fs dd rc exts (f + 1) (.refs (ref :: rest)) seen =
      (match walkW fs dd rc exts f (.visit child) seen with
       | .error e => .error e
       | .ok (crs, s2, p2) =>
         match walkW fs dd rc exts f (.refs rest) s2 with
         | .error e => .error e
         | .ok (rrs, s3, p3) => .ok (ref :: (crs ++ rrs), s3, p2 ++ p3)) := by
  simp only [walkW, hch]

/-- Under the sufficiency condition, one more unit of fuel does not
change the walker's result. -/
theorem walkW_succ (fs : FS) (dd : String) (rc : Bool) (exts : List String) :
    ∀ fuel mode seen, wCond fs fuel mode seen →
      walkW fs dd rc exts (fuel + 1) mode seen = walkW fs dd rc exts fuel mode seen := by
  intro fuel
  induction fuel with
  | zero =>
    intro mode seen hc
    match mode with
    | .visit root =>
      obtain ⟨hp, hr⟩ := hc
      by_cases hmem : root ∈ seen
      · simp [walkW, hmem]
      · rcases hr with h | h
        · contradiction
        · obtain ⟨ls, hls⟩ := Option.isSome_iff_exists.mp h
          have := wPot_visit hls hmem
          omega
    | .refs [] => simp [walkW]
    | .refs (r :: rs) =>
      exfalso
      simp [wCond] at hc
  | succ f ih =>
    intro mode seen hc
    match mode with
    | .visit root =>
      obtain ⟨hp, hr⟩ := hc
      by_cases hmem : root ∈ seen
      · rw [walkW_visit_mem fs dd rc exts hmem, walkW_visit_mem fs dd rc exts hmem]
      · rcases hr with h | h
        · contradiction
        · obtain ⟨ls, hls⟩ := Option.isSome_iff_exists.mp h
          have hv := wPot_visit hls hmem
          have hinner := ih (.refs (toctreeRefs ls)) (root :: seen)
            (by simp only [wCond]; omega)
          rw [walkW_visit_eq fs dd rc exts (f + 1) hmem hls,
            walkW_visit_eq fs dd rc exts f hmem hls, hinner]
    | .refs [] => simp [walkW]
    | .refs (ref :: rest) =>
      have hlen : rest.length + 1 + wPot fs seen ≤ f + 1 := by
        simpa [wCond] using hc
      cases hch : (if rc then firstChild fs dd exts ref else none) with
      | none =>
        have hrest := ih (.refs rest) seen (by simp [wCond]; omega)
        rw [walkW_refs_none fs dd rc exts (f + 1) hch,
          walkW_refs_none fs dd rc exts f hch, hrest]
      | some child =>
        have hchildOk : child ∈ seen ∨ (lookupFS fs child).isSome := by
          right
          have hex : existsFS fs child = true := by
            by_cases hrc : rc
            · exact firstChild_existsFS (by simpa [hrc] using hch)
            · simp [hrc] at hch
          simpa [existsFS] using hex
        have hvisit := ih (.visit child) seen ⟨by omega, hchildOk⟩
        rw [walkW_refs_some fs dd rc exts (f + 1) hch,
          walkW_refs_some fs dd rc exts f hch, hvisit]
        cases hres : walkW fs dd rc exts f (.visit child) seen with
        | error e => rfl
        | ok r =>
          obtain ⟨crs, s2, p2⟩ := r
          obtain ⟨hs2, -, -⟩ := walkW_shape fs dd rc exts _ _ _ _ _ _ hres
          have hp2 : wPot fs s2 ≤ wPot fs seen := by
            refine wPot_mono ?_
            intro x hx
            rw [hs2]
            exact List.mem_append_right _ hx
          have hrest := ih (.refs rest) s2 (by simp [wCond]; omega)
          simp only [hrest]

theorem walkW_add (fs : FS) (dd : String) (rc : Bool) (exts : List String) :
    ∀ k fuel mode seen, wCond fs fuel mode seen →
      walkW fs dd rc exts (fuel + k) mode seen = walkW fs dd rc exts fuel mode seen := by
  intro k
  induction k with
  | zero => intro fuel mode seen _; rfl
  | succ k ih =>
    intro fuel mode seen hc
    have h1 : fuel + (k + 1) = (fuel + k) + 1 := by omega
    rw [h1, walkW_succ fs dd rc exts (fuel + k) mode seen
      (wCond_mono hc (by omega)), ih fuel mode seen hc]

/-- Any two sufficient fuels give the same walker result. -/
theorem walkW_fuel_indep (fs : FS) (dd : String) (rc : Bool) (exts : List String)
    {f1 f2 : Nat} {mode : WMode} {seen : List String}
    (h1 : wCond fs f1 mode seen) (h2 : wCond fs f2 mode seen) :
    walkW fs dd rc exts f1 mode seen = walkW fs dd rc exts f2 mode seen := by
  rcases le_total f1 f2 with h | h
  · obtain ⟨k, rfl⟩ := Nat.le.dest h
    exact (walkW_add fs dd rc exts k f1 mode seen h1).symm
  · obtain ⟨k, rfl⟩ := Nat.le.dest h
    exact walkW_add fs dd rc exts k f2 mode seen h2

/-- The fuel `fsFuel fs` is sufficient for any visit, whatever the seen
set: the walker's value is stable from that fuel on. -/
theorem walkW_stable (fs : FS) (dd : String) (rc : Bool) (exts : List String)
    {fuel : Nat} (hf : fsFuel fs ≤ fuel) (root : String) (seen : List String) :
    walkW fs dd rc exts fuel (.visit root) seen =
      walkW fs dd rc exts (fsFuel fs) (.visit root) seen := by
  by_cases hmem : root ∈ seen
  · rw [walkW_visit_mem fs dd rc exts hmem, walkW_visit_mem fs dd rc exts hmem]
  · cases hlook : lookupFS fs root with
    | none =>
      rw [walkW_visit_nofile fs dd rc exts hmem hlook,
        walkW_visit_nofile fs dd rc exts hmem hlook]
    | some ls =>
      have hpot : wPot fs seen ≤ wPot fs [] :=
        wPot_mono (by intro p hp; simp at hp)
      have hsome : (lookupFS fs root).isSome := by rw [hlook]; rfl
      exact walkW_fuel_indep fs dd rc exts
        ⟨by simp only [fsFuel] at hf; omega, Or.inr hsome⟩
        ⟨by simp only [fsFuel]; omega, Or.inr hsome⟩

/-- The footprint of an artifact whose sizing succeeded. -/
def szOf (so : String → List String) (e : String) : Int :=
  match flash_usage (so e) with
  | .ok v => v
  | .error _ => 0

/-- When every artifact sizes successfully, the gate loop completes with
the running maximum, the sticky failure status, and one diagnostic per
artifact on the appropriate stream. -/
theorem gateLoop_ok (so : String → List String) (limit : Int) :
    ∀ elfs (m : Int) (st : Nat), (∀ e ∈ elfs, ∃ v, flash_usage (so e) = .ok v) →
      gateLoop so limit elfs m st = .ok
        ((elfs.map (szOf so)).foldl max m,
         (if elfs.any (fun e => decide (szOf so e > limit)) then 1 else st),
         (elfs.filter (fun e => decide (¬ szOf so e > limit))).map
           (fun e => okMsg e (szOf so e)),
         (elfs.filter (fun e => decide (szOf so e > limit))).map
           (fun e => failMsg e (szOf so e) limit)) := by
  intro elfs
  induction elfs with
  | nil => intro m st _; rfl
  | cons e rest ih =>
    intro m st h
    obtain ⟨v, hv⟩ := h e (List.mem_cons_self _ _)
    have hsz : szOf so e = v := by simp [szOf, hv]
    have hrest := fun m st => ih m st (fun x hx => h x (List.mem_cons_of_mem _ hx))
    by_cases hover : v > limit
    · simp only [gateLoop, hv, if_pos hover, hrest (max m v) 1]
      simp [hsz, hover, List.filter_cons, List.any_cons]
    · have hle : v ≤ limit := not_lt.mp hover
      simp only [gateLoop, hv, if_neg hover, hrest (max m v) st]
      simp [hsz, hover, hle, List.filter_cons, List.any_cons]

/-- If some artifact fails to size, the loop raises (on the earliest
such artifact). -/
theorem gateLoop_err (so : String → List String) (limit : Int) :
    ∀ elfs (m : Int) (st : Nat),
      (∃ e ∈ elfs, ∃ err, flash_usage (so e) = .error err) →
      ∃ e', gateLoop so limit elfs m st = .error e' := by
  intro elfs
  induction elfs with
  | nil =>
    intro m st h
    obtain ⟨e, he, -⟩ := h
    simp at he
  | cons a rest ih =>
    intro m st h
    cases ha : flash_usage (so a) with
    | error err => exact ⟨a, by simp [gateLoop, ha]⟩
    | ok v =>
      have hrest : ∃ e ∈ rest, ∃ err, flash_usage (so e) = .error err := by
        obtain ⟨e, he, err, herr⟩ := h
        rcases List.mem_cons.mp he with rfl | hmem
        · rw [ha] at herr
          cases herr
        · exact ⟨e, hmem, err, herr⟩
      by_cases hover : v > limit
      · obtain ⟨e', he'⟩ := ih (max m v) 1 hrest
        exact ⟨e', by simp [gateLoop, ha, if_pos hover, he']⟩
      · obtain ⟨e', he'⟩ := ih (max m v) st hrest
        exact ⟨e', by simp [gateLoop, ha, if_neg hover, he']⟩

theorem missingPaths_ok (fs : FS) (dd : String) {exts : List String}
    (hex : exts ≠ []) : ∀ refs, ∃ ms, missingPaths fs dd exts refs = .ok ms := by
  intro refs
  induction refs with
  | nil => exact ⟨[], rfl⟩
  | cons ref rest ih =>
    obtain ⟨ms, hms⟩ := ih
    by_cases hsuf : pySuffix ref ≠ ""
    · refine ⟨if existsFS fs (pjoin dd ref) then ms else pjoin dd ref :: ms, ?_⟩
      simp [missingPaths, hsuf, hms]
    · by_cases hany : exts.any (fun ext => existsFS fs (pjoin dd (ref ++ ext)))
      · exact ⟨ms, by simp [missingPaths, hsuf, hany, hms]⟩
      · match exts, hex with
        | ext0 :: exs, _ =>
          exact ⟨pjoin dd (ref ++ ext0) :: ms, by simp [missingPaths, hsuf, hany, hms]⟩

theorem relAll_of_isSome (dd : String) :
    ∀ ms, (∀ p ∈ ms, (relativeTo dd p).isSome) →
      relAll dd ms = some (ms.map (fun p => (relativeTo dd p).getD "")) := by
  intro ms
  induction ms with
  | nil => intro _; rfl
  | cons p rest ih =>
    intro h
    obtain ⟨r, hr⟩ := Option.isSome_iff_exists.mp (h p (List.mem_cons_self _ _))
    rw [List.map_cons, relAll, hr, ih (fun x hx => h x (List.mem_cons_of_mem _ hx))]
    simp

theorem foldl_max_le (l : List Int) :
    ∀ a : Int, a ≤ l.foldl max a ∧ ∀ s ∈ l, s ≤ l.foldl max a := by
  induction l with
  | nil =>
    intro a
    exact ⟨le_refl a, by intro s hs; simp at hs⟩
  | cons x xs ih =>
    intro a
    refine ⟨le_trans (le_max_left a x) (ih (max a x)).1, ?_⟩
    intro s hs
    rcases List.mem_cons.mp hs with rfl | hmem
    · exact le_trans (le_max_right a s) (ih (max a s)).1
    · exact (ih (max a x)).2 s hmem

theorem foldl_max_mem (l : List Int) :
    ∀ a : Int, l.foldl max a = a ∨ l.foldl max a ∈ l := by
  induction l with
  | nil => intro a; exact Or.inl rfl
  | cons x xs ih =>
    intro a
    rcases ih (max a x) with h | h
    · rcases max_choice a x with hm | hm
      · left
        rw [List.foldl_cons, h, hm]
      · right
        rw [List.foldl_cons, h, hm]
        exact List.mem_cons_self _ _
    · exact Or.inr (List.mem_cons_of_mem _ (by simpa using h))

theorem colon_head {s : String} (h : pyStartsWith s ":" = true) :
    s.data.head? = some ':' := by
  unfold pyStartsWith at h
  rw [show (":").data = [':'] from rfl] at h
  cases hd : s.data with
  | nil => rw [hd] at h; simp [List.isPrefixOf] at h
  | cons c cs =>
    rw [hd] at h
    simp [List.isPrefixOf] at h
    have hc : c = ':' := h.symm
    simp [hc]

theorem not_toctree_of_colon {l : List Char} (h : l.head? = some ':') :
    (".. toctree::".data.isPrefixOf l) = false := by
  cases l with
  | nil => simp at h
  | cons c cs =>
    simp at h
    subst h
    rw [show ".. toctree::".data = '.' :: ". toctree::".data from rfl]
    simp [List.isPrefixOf]

/-! ## Claim theorems -/

/-- C7: a line inside a toctree block whose stripped content starts with
the directive-option marker `:` is skipped: it yields no reference and
leaves the scanner state (in particular the established indentation
level) unchanged. -/
theorem claim_C7 (st : TocState) (line : String)
    (hin : st.inside = true)
    (hcol : pyStartsWith (pyLstrip line) ":" = true) :
    tocStep st line = (st, []) := by
  have hmk : pyStartsWith (pyLstrip line) ".. toctree::" = false :=
    not_toctree_of_colon (colon_head hcol)
  unfold tocStep
  simp [hmk, hin, hcol]

theorem claim_C7_witness :
    (⟨true, some 3⟩ : TocState).inside = true ∧
      pyStartsWith (pyLstrip "   :maxdepth: 2") ":" = true ∧
      tocStep ⟨true, some 3⟩ "   :maxdepth: 2" = (⟨true, some 3⟩, []) :=
  ⟨rfl, by decide, claim_C7 ⟨true, some 3⟩ "   :maxdepth: 2" rfl (by decide)⟩

/-- C6: inside a block with an established indentation level, a content
line with strictly smaller indentation ends the block, and the same line
is still checked against the block-start marker first — so a marker line
always opens a new block, whatever the current state; entries of several
blocks interspersed with other content are concatenated in document
order (two concrete documents). -/
theorem claim_C6 :
    (∀ (st : TocState) (line : String),
      pyStartsWith (pyLstrip line) ".. toctree::" = true →
      tocStep st line = (⟨true, none⟩, [])) ∧
    (∀ (b : Nat) (line : String),
      pyStartsWith (pyLstrip line) ".. toctree::" = false →
      pyLstrip line ≠ "" →
      pyStartsWith (pyLstrip line) ":" = false →
      line.length - (pyLstrip line).length < b →
      tocStep ⟨true, some b⟩ line = (⟨false, some b⟩, [])) ∧
    toctreeRefs ["Intro", ".. toctree::", "   :maxdepth: 2", "", "   a1",
      "   a2", "Outside text", ".. toctree::", "   b1", "tail"]
      = ["a1", "a2", "b1"] ∧
    toctreeRefs [".. toctree::", "   x", ".. toctree::", "   y"] = ["x", "y"] := by
  refine ⟨?_, ?_, by rfl, by rfl⟩
  · intro st line hmk
    unfold tocStep
    simp [hmk]
  · intro b line hmk hne hcol hlt
    unfold tocStep
    simp [hmk, hne, hcol, hlt]

theorem claim_C6_witness :
    tocStep ⟨false, some 7⟩ ".. toctree::" = (⟨true, none⟩, []) ∧
      tocStep ⟨true, some 3⟩ "back" = (⟨false, some 3⟩, []) :=
  ⟨claim_C6.1 ⟨false, some 7⟩ ".. toctree::" (by decide),
   claim_C6.2.1 3 "back" (by decide) (by decide) (by decide) (by decide)⟩

/-- C1 counterexample: the token `.rst` ends in the allowed extension
`.rst` and the verbatim candidate `/d/.rst` exists, yet `_missing_paths`
reports a missing path (`/d/.rst.rst`): the code branches on
`Path(ref).suffix`, which is empty for `.rst`, not on "ends in an
allowed extension". -/
theorem claim_C1_counterexample :
    pyEndsWith ".rst" ".rst" = true ∧
      existsFS [("/d/.rst", [])] "/d/.rst" = true ∧
      missingPaths [("/d/.rst", [])] "/d" [".rst"] [".rst"] = .ok ["/d/.rst.rst"] :=
  ⟨by decide, by decide, by rfl⟩

/-- C1 (amended): a token whose final component has a nonempty pathlib
suffix is checked verbatim (and is the reported missing path when
absent); a token with empty suffix is tried with each allowed extension
and resolves iff some candidate exists; when none exists, exactly one
missing path is reported, the token plus the first allowed extension;
the index/alpha/beta example reports exactly `<docs_dir>/beta.rst`. -/
theorem claim_C1_amended :
    (∀ (fs : FS) (dd : String) (exts : List String) (ref : String),
      pySuffix ref ≠ "" →
        missingPaths fs dd exts [ref] =
          .ok (if existsFS fs (pjoin dd ref) then [] else [pjoin dd ref])) ∧
    (∀ (fs : FS) (dd : String) (ext0 : String) (exts' : List String) (ref : String),
      pySuffix ref = "" →
        ((∃ ext ∈ ext0 :: exts', existsFS fs (pjoin dd (ref ++ ext)) = true) →
          missingPaths fs dd (ext0 :: exts') [ref] = .ok []) ∧
        ((∀ ext ∈ ext0 :: exts', ¬ existsFS fs (pjoin dd (ref ++ ext)) = true) →
          missingPaths fs dd (ext0 :: exts') [ref] = .ok [pjoin dd (ref ++ ext0)])) ∧
    missingPaths [("/docs/index.rst", [".. toctree::", "   alpha", "   beta"]),
        ("/docs/alpha.rst", [])] "/docs" [".rst"] ["alpha", "beta"] =
      .ok ["/docs/beta.rst"] ∧
    cdBody [("/docs/index.rst", [".. toctree::", "   alpha", "   beta"]),
        ("/docs/alpha.rst", [])] "/docs" none false [".rst"] = (1, ["beta.rst"]) := by
  refine ⟨?_, ?_, by rfl, by rfl⟩
  · intro fs dd exts ref hsuf
    simp only [missingPaths, if_pos hsuf]
  · intro fs dd ext0 exts' ref hsuf
    have hsuf' : ¬ pySuffix ref ≠ "" := by simp [hsuf]
    constructor
    · intro hexi
      have hany : (ext0 :: exts').any
          (fun ext => existsFS fs (pjoin dd (ref ++ ext))) = true := by
        obtain ⟨ext, hmem, hex⟩ := hexi
        exact List.any_eq_true.mpr ⟨ext, hmem, hex⟩
      simp [missingPaths, hsuf', hany]
    · intro hnone
      have hany : (ext0 :: exts').any
          (fun ext => existsFS fs (pjoin dd (ref ++ ext))) = false := by
        rw [List.any_eq_false]
        intro ext hmem
        simp [hnone ext hmem]
      simp [missingPaths, hsuf', hany]

theorem claim_C1_amended_witness :
    missingPaths [("/d/x.rst", [])] "/d" [".rst"] ["x.rst"] = .ok [] ∧
      missingPaths [("/d/x.rst", [])] "/d" [".rst"] ["x"] = .ok [] ∧
      missingPaths [("/d/x.rst", [])] "/d" [".rst", ".md"] ["y"] = .ok ["/d/y.rst"] := by
  refine ⟨?_, ?_, ?_⟩
  · have h := claim_C1_amended.1 [("/d/x.rst", [])] "/d" [".rst"] "x.rst" (by decide)
    simpa using h
  · have h := (claim_C1_amended.2.1 [("/d/x.rst", [])] "/d" ".rst" [] "x" (by decide)).1
      ⟨".rst", by decide, by decide⟩
    simpa using h
  · have h := (claim_C1_amended.2.1 [("/d/x.rst", [])] "/d" ".rst" [".md"] "y" (by decide)).2
      (by decide)
    simpa using h

/-- C2: the recursive traversal stabilizes at the fuel bound `fsFuel`
(so it terminates for every reference graph, cyclic ones included); a
visit with sufficient fuel succeeds, parses no file twice (the parsed
list is duplicate-free) and only parses files that were unvisited and
readable, the visited set being extended by exactly the parsed files;
a two-node cycle terminates without duplication, and a three-node chain
returns the references of all three files in traversal order. -/
theorem claim_C2 :
    (∀ (fs : FS) (dd : String) (rc : Bool) (exts : List String) (root : String)
        (fuel : Nat), fsFuel fs ≤ fuel →
        walkW fs dd rc exts fuel (.visit root) [] = walkRefs fs dd rc exts root) ∧
    (∀ (fs : FS) (dd : String) (rc : Bool) (exts : List String) (root : String)
        (seen : List String),
        root ∈ seen ∨ (lookupFS fs root).isSome →
        ∃ refs s parsed,
          walkW fs dd rc exts (fsFuel fs) (.visit root) seen = .ok (refs, s, parsed) ∧
          parsed.Nodup ∧ (∀ q ∈ parsed, q ∉ seen ∧ (lookupFS fs q).isSome) ∧
          s = parsed.reverse ++ seen) ∧
    walkRefs [("/d/a.rst", [".. toctree::", "   b"]),
        ("/d/b.rst", [".. toctree::", "   a"])] "/d" true [".rst"] "/d/a.rst" =
      .ok (["b", "a"], ["/d/b.rst", "/d/a.rst"], ["/d/a.rst", "/d/b.rst"]) ∧
    walkRefs [("/d/a.rst", [".. toctree::", "   b"]),
        ("/d/b.rst", [".. toctree::", "   c"]),
        ("/d/c.rst", [".. toctree::", "   zzz"])] "/d" true [".rst"] "/d/a.rst" =
      .ok (["b", "c", "zzz"], ["/d/c.rst", "/d/b.rst", "/d/a.rst"],
        ["/d/a.rst", "/d/b.rst", "/d/c.rst"]) := by
  refine ⟨?_, ?_, by rfl, by rfl⟩
  · intro fs dd rc exts root fuel hf
    exact walkW_stable fs dd rc exts hf root []
  · intro fs dd rc exts root seen hr
    have hcond : wCond fs (fsFuel fs) (.visit root) seen := by
      refine ⟨?_, hr⟩
      have := @wPot_mono fs [] seen (by intro p hp; simp at hp)
      simp only [fsFuel]
      omega
    obtain ⟨⟨refs, s, parsed⟩, heq⟩ := walkW_ok fs dd rc exts (fsFuel fs) _ _ hcond
    obtain ⟨hs, hnd, hfr⟩ := walkW_shape fs dd rc exts _ _ _ _ _ _ heq
    exact ⟨refs, s, parsed, heq, hnd, hfr, hs⟩

theorem claim_C2_witness :
    fsFuel [("/d/a.rst", [".. toctree::", "   b"]),
        ("/d/b.rst", [".. toctree::", "   a"])] ≤ 99 ∧
    walkW [("/d/a.rst", [".. toctree::", "   b"]),
        ("/d/b.rst", [".. toctree::", "   a"])] "/d" true [".rst"] 99
        (.visit "/d/a.rst") [] =
      walkRefs [("/d/a.rst", [".. toctree::", "   b"]),
        ("/d/b.rst", [".. toctree::", "   a"])] "/d" true [".rst"] "/d/a.rst" ∧
    (∃ refs s parsed,
      walkW [("/d/a.rst", [])] "/d" true [".rst"]
          (fsFuel [("/d/a.rst", [])]) (.visit "/d/a.rst") [] = .ok (refs, s, parsed) ∧
      parsed.Nodup ∧ (∀ q ∈ parsed, q ∉ ([] : List String) ∧
        (lookupFS [("/d/a.rst", [])] q).isSome) ∧
      s = parsed.reverse ++ []) :=
  ⟨by decide,
   claim_C2.1 _ "/d" true [".rst"] "/d/a.rst" 99 (by decide),
   claim_C2.2.1 [("/d/a.rst", [])] "/d" true [".rst"] "/d/a.rst" [] (Or.inr (by decide))⟩

/-- C3 counterexample: with an absolute reference token (`/zeta`, a form
Sphinx allows), the unresolved-reference run does not return 1: the
missing candidate `/zeta.rst` lies outside `docs_dir`, so
`path.relative_to(docs_dir)` raises while printing and the
`except Exception` handler turns the run into exit code 2. -/
theorem claim_C3_counterexample :
    walkRefs [("/docs/index.rst", [".. toctree::", "   /zeta"])] "/docs" false
        [".rst"] "/docs/index.rst" =
      .ok (["/zeta"], ["/docs/index.rst"], ["/docs/index.rst"]) ∧
    missingPaths [("/docs/index.rst", [".. toctree::", "   /zeta"])] "/docs"
        [".rst"] ["/zeta"] = .ok ["/zeta.rst"] ∧
    (["/zeta.rst"] : List String) ≠ [] ∧
    cdBody [("/docs/index.rst", [".. toctree::", "   /zeta"])] "/docs" none false
        [".rst"] = (2, []) :=
  ⟨by rfl, by rfl, by decide, by rfl⟩

/-- C3 (amended): the checker's body returns 2 when the index file does
not exist and 0 when every reference resolves; when at least one
reference is unresolved it returns 1 and prints every missing path —
provided every missing candidate lies below `docs_dir` (otherwise the
relative-path printing raises and the fatal handler returns 2 instead).
The three outcomes use the distinct statuses 0, 1, 2. -/
theorem claim_C3_amended (fs : FS) (docsDir : String) (indexFile : Option String)
    (rc : Bool) (extsRaw : List String) (hex : extsRaw ≠ []) :
    (existsFS fs (indexFile.getD (pjoin docsDir "index.rst")) = false →
      cdBody fs docsDir indexFile rc extsRaw = (2, [])) ∧
    (∀ lines, lookupFS fs (indexFile.getD (pjoin docsDir "index.rst")) = some lines →
      ∃ refs s parsed ms,
        walkRefs fs docsDir rc (extsRaw.map normExt)
            (indexFile.getD (pjoin docsDir "index.rst")) = .ok (refs, s, parsed) ∧
        missingPaths fs docsDir (extsRaw.map normExt) refs = .ok ms ∧
        (ms = [] → cdBody fs docsDir indexFile rc extsRaw = (0, [])) ∧
        (ms ≠ [] → (∀ pa ∈ ms, (relativeTo docsDir pa).isSome) →
          cdBody fs docsDir indexFile rc extsRaw =
            (1, ms.map (fun pa => (relativeTo docsDir pa).getD "")))) := by
  constructor
  · intro h
    simp [cdBody, h]
  · intro lines hlook
    have hexi : existsFS fs (indexFile.getD (pjoin docsDir "index.rst")) = true := by
      simp [existsFS, hlook]
    have hsome : (lookupFS fs (indexFile.getD (pjoin docsDir "index.rst"))).isSome := by
      simp [hlook]
    have hcond : wCond fs (fsFuel fs)
        (.visit (indexFile.getD (pjoin docsDir "index.rst"))) [] := by
      refine ⟨?_, Or.inr hsome⟩
      simp only [fsFuel]
      omega
    obtain ⟨⟨refs, s, parsed⟩, heq⟩ :=
      walkW_ok fs docsDir rc (extsRaw.map normExt) (fsFuel fs) _ _ hcond
    have hexts : extsRaw.map normExt ≠ [] := by
      intro hc
      exact hex (List.map_eq_nil_iff.mp hc)
    obtain ⟨ms, hms⟩ := missingPaths_ok fs docsDir hexts refs
    refine ⟨refs, s, parsed, ms, heq, hms, ?_, ?_⟩
    · intro hnil
      subst hnil
      simp only [cdBody, hexi, Bool.not_true, Bool.false_eq_true, if_false]
      rw [show walkRefs fs docsDir rc (extsRaw.map normExt)
          (indexFile.getD (pjoin docsDir "index.rst")) = .ok (refs, s, parsed) from heq]
      simp only [hms]
    · intro hne hall
      obtain ⟨m0, ms', rfl⟩ := List.exists_cons_of_ne_nil hne
      have hrel := relAll_of_isSome docsDir (m0 :: ms') hall
      simp only [cdBody, hexi, Bool.not_true, Bool.false_eq_true, if_false]
      rw [show walkRefs fs docsDir rc (extsRaw.map normExt)
          (indexFile.getD (pjoin docsDir "index.rst")) = .ok (refs, s, parsed) from heq]
      simp only [hms, hrel]

theorem claim_C3_amended_witness :
    cdBody [] "/docs" none false [".rst"] = (2, []) ∧
    (∃ refs s parsed ms,
      walkRefs [("/docs/index.rst", [".. toctree::", "   alpha"]),
          ("/docs/alpha.rst", [])] "/docs" false ([".rst"].map normExt)
          ((none : Option String).getD (pjoin "/docs" "index.rst")) =
        .ok (refs, s, parsed) ∧
      missingPaths [("/docs/index.rst", [".. toctree::", "   alpha"]),
          ("/docs/alpha.rst", [])] "/docs" ([".rst"].map normExt) refs = .ok ms ∧
      (ms = [] → cdBody [("/docs/index.rst", [".. toctree::", "   alpha"]),
          ("/docs/alpha.rst", [])] "/docs" none false [".rst"] = (0, [])) ∧
      (ms ≠ [] → (∀ pa ∈ ms, (relativeTo "/docs" pa).isSome) →
        cdBody [("/docs/index.rst", [".. toctree::", "   alpha"]),
            ("/docs/alpha.rst", [])] "/docs" none false [".rst"] =
          (1, ms.map (fun pa => (relativeTo "/docs" pa).getD "")))) :=
  ⟨(claim_C3_amended [] "/docs" none false [".rst"] (by decide)).1 (by decide),
   (claim_C3_amended [("/docs/index.rst", [".. toctree::", "   alpha"]),
       ("/docs/alpha.rst", [])] "/docs" none false [".rst"] (by decide)).2
     [".. toctree::", "   alpha"] (by rfl)⟩

/-- The only `SystemExit` codes argparse produces here: 0 for `-h`,
2 for a parsing error. -/
theorem parseCD_errs :
    ∀ (n : Nat) (argv : List String) (acc : CDArgs) (c : Nat),
      argv.length ≤ n → parseCD acc argv = .error c → c = 0 ∨ c = 2 := by
  intro n
  induction n with
  | zero =>
    intro argv acc c hlen h
    match argv with
    | [] => simp [parseCD] at h
    | t :: r => simp at hlen
  | succ n ih =>
    intro argv acc c hlen h
    match argv with
    | [] => simp [parseCD] at h
    | tok :: rest =>
      rw [parseCD.eq_def] at h
      simp only [] at h
      simp only [List.length_cons] at hlen
      split_ifs at h
      · cases h
        exact Or.inl rfl
      · exact ih rest _ c (by omega) h
      · exact ih rest _ c (by omega) h
      · match rest with
        | [] =>
          cases h
          exact Or.inr rfl
        | v :: rest' =>
          exact ih rest' _ c (by simp at hlen; omega) h
      · match rest with
        | [] =>
          cases h
          exact Or.inr rfl
        | v :: rest' =>
          exact ih rest' _ c (by simp at hlen; omega) h
      · match rest with
        | [] =>
          cases h
          exact Or.inr rfl
        | v :: rest' =>
          exact ih rest' _ c (by simp at hlen; omega) h
      · exact ih rest _ c (by omega) h
      · exact ih rest _ c (by omega) h
      · exact ih rest _ c (by omega) h
      · cases h
        exact Or.inr rfl

/-- Every exit code the body of `main` can return is 0, 1 or 2. -/
theorem cdBody_code (fs : FS) (dd : String) (idx : Option String) (rc : Bool)
    (er : List String) :
    (cdBody fs dd idx rc er).1 = 0 ∨ (cdBody fs dd idx rc er).1 = 1 ∨
      (cdBody fs dd idx rc er).1 = 2 := by
  rcases h : cdBody fs dd idx rc er with ⟨code, printed⟩
  simp only [cdBody] at h
  split at h
  · cases h
    exact Or.inr (Or.inr rfl)
  · split at h
    · cases h
      exact Or.inr (Or.inr rfl)
    · split at h
      · cases h
        exact Or.inr (Or.inr rfl)
      · cases h
        exact Or.inl rfl
      · split at h
        · cases h
          exact Or.inr (Or.inr rfl)
        · cases h
          exact Or.inr (Or.inl rfl)

/-- C10 counterexample: on an unrecognized option, `argparse` raises
`SystemExit(2)`, which `except Exception` does not catch — `main` does
not return at all, contradicting "main never raises". -/
theorem claim_C10_counterexample :
    checkDocsMain [] "/d" ["--bogus"] = .sysExit 2 := by rfl

/-- C10 (amended): whenever `main` returns, its value is one of exactly
0, 1 and 2 (every `Exception` in the body is converted to 2); but a
`SystemExit` raised by argument parsing (code 2 on a bad option, 0 on
`-h`) escapes `main` uncaught. -/
theorem claim_C10_amended (fs : FS) (defDocs : String) (argv : List String) :
    (∃ c printed, checkDocsMain fs defDocs argv = .ret c printed ∧
      (c = 0 ∨ c = 1 ∨ c = 2)) ∨
    (∃ c, checkDocsMain fs defDocs argv = .sysExit c ∧ (c = 0 ∨ c = 2)) := by
  unfold checkDocsMain
  cases hp : parseCD ⟨defDocs, none, false, [".rst"], false⟩ argv with
  | error c =>
    right
    exact ⟨c, rfl, parseCD_errs argv.length argv _ c le_rfl hp⟩
  | ok a =>
    left
    cases hcb : cdBody fs a.docsDir a.indexFile a.recursive a.exts with
    | mk code printed =>
      refine ⟨code, printed, by simp [hcb], ?_⟩
      have := cdBody_code fs a.docsDir a.indexFile a.recursive a.exts
      rw [hcb] at this
      exact this

theorem mainGate_explicit (env : GateEnv) (limit : Int) (output : Option String)
    (pos : List String) (h2 : 2 ≤ pos.length) :
    mainGate env limit none output pos =
      finishGate env limit pos.dropLast (output.getD (pos.getLastD "")) := by
  unfold mainGate
  rw [if_neg (by omega)]
  cases output <;> rfl

theorem mainGate_sweep (env : GateEnv) (limit : Int) (output : Option String)
    (pos : List String) (d : String) (hne : env.elfsUnder d ≠ []) :
    mainGate env limit (some d) output pos =
      finishGate env limit (env.elfsUnder d) (output.getD (pjoin d "size_gate.txt")) := by
  unfold mainGate
  cases hE : env.elfsUnder d with
  | nil => exact absurd hE hne
  | cons a as => cases output <;> simp [hE]

theorem finishGate_ok (env : GateEnv) (limit : Int) (elfs : List String)
    (outPath : String)
    (hok : ∀ e ∈ elfs, ∃ v, flash_usage (env.sizeOut e) = .ok v) :
    finishGate env limit elfs outPath =
      ⟨.ret (if elfs.any (fun e => decide (szOf env.sizeOut e > limit)) then 1 else 0),
       some (outPath, toString ((elfs.map (szOf env.sizeOut)).foldl max 0) ++ "\n"),
       (elfs.filter (fun e => decide (¬ szOf env.sizeOut e > limit))).map
         (fun e => okMsg e (szOf env.sizeOut e)),
       (elfs.filter (fun e => decide (szOf env.sizeOut e > limit))).map
         (fun e => failMsg e (szOf env.sizeOut e) limit)⟩ := by
  unfold finishGate
  rw [gateLoop_ok env.sizeOut limit elfs 0 0 hok]

theorem max0_spec (l : List Int) (hne : l ≠ []) (hnn : ∀ v ∈ l, 0 ≤ v) :
    l.foldl max 0 ∈ l ∧ ∀ v ∈ l, v ≤ l.foldl max 0 := by
  refine ⟨?_, (foldl_max_le l 0).2⟩
  rcases foldl_max_mem l 0 with h | h
  · match l, hne with
    | x :: xs, _ =>
      have hx1 : x ≤ (x :: xs).foldl max 0 :=
        (foldl_max_le _ 0).2 x (List.mem_cons_self _ _)
      rw [h] at hx1
      have hx0 : x = 0 := le_antisymm hx1 (hnn x (List.mem_cons_self _ _))
      rw [h, ← hx0]
      exact List.mem_cons_self _ _
  · exact h

theorem sumTextData_cases (a b : String) :
    sumTextData a b = .error .valueError ∨ ∃ v, sumTextData a b = .ok v := by
  unfold sumTextData
  cases hpa : pyInt a with
  | none => exact Or.inl rfl
  | some x =>
    cases hpb : pyInt b with
    | none => exact Or.inl rfl
    | some y => exact Or.inr ⟨x + y, rfl⟩

theorem parseSizeLine_cases (last : String) :
    parseSizeLine last = .error .valueError ∨ ∃ v, parseSizeLine last = .ok v := by
  unfold parseSizeLine
  rcases htk : (pySplitWs last).take 2 with _ | ⟨a, tl⟩
  · exact Or.inl rfl
  · rcases tl with _ | ⟨b, tl2⟩
    · exact Or.inl rfl
    · rcases tl2 with _ | ⟨c, tl3⟩
      · show sumTextData a b = .error .valueError ∨ ∃ v, sumTextData a b = .ok v
        exact sumTextData_cases a b
      · exact Or.inl rfl

theorem flash_usage_long (out : List String)
    (h : ¬ (out.filter (fun l => pyStrip l ≠ "")).length < 2) :
    flash_usage out = .error .valueError ∨ ∃ v, flash_usage out = .ok v := by
  unfold flash_usage
  rw [if_neg h]
  have hne : out.filter (fun l => pyStrip l ≠ "") ≠ [] := by
    intro hnil
    rw [hnil] at h
    simp at h
  obtain ⟨last, hlast⟩ :=
    Option.isSome_iff_exists.mp (List.getLast?_isSome.mpr hne)
  rw [hlast]
  show parseSizeLine last = .error .valueError ∨ ∃ v, parseSizeLine last = .ok v
  exact parseSizeLine_cases last

theorem flash_usage_unexpected_iff (out : List String) :
    flash_usage out = .error .unexpectedOutput ↔
      (out.filter (fun l => pyStrip l ≠ "")).length < 2 := by
  constructor
  · intro hc
    by_contra h
    rcases flash_usage_long out h with h1 | ⟨v, h1⟩ <;>
      · rw [h1] at hc
        simp at hc
  · intro h
    unfold flash_usage
    rw [if_pos h]

/-- C9: `flash_usage` raises its `RuntimeError` exactly when the tool
output has fewer than two non-blank lines; any sizing failure aborts
`main` (in either invocation mode) with an escaping exception and no
stamp write, an outcome distinct from the normal failure path used for
size violations. -/
theorem claim_C9 :
    (∀ out : List String,
      flash_usage out = .error .unexpectedOutput ↔
        (out.filter (fun l => pyStrip l ≠ "")).length < 2) ∧
    (∀ (env : GateEnv) (limit : Int) (elfs : List String) (outPath : String),
      (∃ e ∈ elfs, ∃ err, flash_usage (env.sizeOut e) = .error err) →
      ∃ e', finishGate env limit elfs outPath = ⟨.exn e', none, [], []⟩) ∧
    (∀ (env : GateEnv) (limit : Int) (output : Option String) (pos : List String),
      2 ≤ pos.length →
      mainGate env limit none output pos =
        finishGate env limit pos.dropLast (output.getD (pos.getLastD ""))) ∧
    (∀ (env : GateEnv) (limit : Int) (output : Option String) (pos : List String)
        (d : String), env.elfsUnder d ≠ [] →
      mainGate env limit (some d) output pos =
        finishGate env limit (env.elfsUnder d)
          (output.getD (pjoin d "size_gate.txt"))) ∧
    (∀ (e : String) (n : Nat), (GateHalt.exn e) ≠ (GateHalt.ret n)) := by
  refine ⟨flash_usage_unexpected_iff, ?_, mainGate_explicit, mainGate_sweep,
    fun e n h => by cases h⟩
  intro env limit elfs outPath herr
  obtain ⟨e', he'⟩ := gateLoop_err env.sizeOut limit elfs 0 0 herr
  exact ⟨e', by unfold finishGate; rw [he']⟩

theorem claim_C9_witness :
    (flash_usage ["only one line"] = .error .unexpectedOutput ↔
      ((["only one line"] : List String).filter (fun l => pyStrip l ≠ "")).length < 2) ∧
    (∃ e', finishGate ⟨fun _ => ["bad"], fun _ => []⟩ 100 ["a.elf"] "stamp" =
      ⟨.exn e', none, [], []⟩) :=
  ⟨claim_C9.1 ["only one line"],
   claim_C9.2.1 ⟨fun _ => ["bad"], fun _ => []⟩ 100 ["a.elf"] "stamp"
     ⟨"a.elf", List.mem_cons_self _ _, .unexpectedOutput, by rfl⟩⟩

theorem finishGate_max (env : GateEnv) (limit : Int) (elfs : List String)
    (outPath : String) (hne : elfs ≠ [])
    (hok : ∀ e ∈ elfs, ∃ v, flash_usage (env.sizeOut e) = .ok v)
    (hnn : ∀ e ∈ elfs, 0 ≤ szOf env.sizeOut e) :
    ∃ st M, (st = 0 ∨ st = 1) ∧
      (finishGate env limit elfs outPath).halt = .ret st ∧
      (finishGate env limit elfs outPath).stamp = some (outPath, toString M ++ "\n") ∧
      M ∈ elfs.map (szOf env.sizeOut) ∧
      ∀ v ∈ elfs.map (szOf env.sizeOut), v ≤ M := by
  rw [finishGate_ok env limit elfs outPath hok]
  have hnn' : ∀ v ∈ elfs.map (szOf env.sizeOut), 0 ≤ v := by
    intro v hv
    obtain ⟨e, he, rfl⟩ := List.mem_map.mp hv
    exact hnn e he
  have hmne : elfs.map (szOf env.sizeOut) ≠ [] := by
    intro hc
    exact hne (List.map_eq_nil_iff.mp hc)
  obtain ⟨hm1, hm2⟩ := max0_spec (elfs.map (szOf env.sizeOut)) hmne hnn'
  refine ⟨_, _, ?_, rfl, rfl, hm1, hm2⟩
  by_cases h : elfs.any (fun e => decide (szOf env.sizeOut e > limit)) <;> simp [h]

theorem finishGate_status (env : GateEnv) (limit : Int) (elfs : List String)
    (outPath : String)
    (hok : ∀ e ∈ elfs, ∃ v, flash_usage (env.sizeOut e) = .ok v) :
    ((finishGate env limit elfs outPath).halt = .ret 1 ↔
      ∃ e ∈ elfs, szOf env.sizeOut e > limit) ∧
    (finishGate env limit elfs outPath).stdoutLog =
      (elfs.filter (fun e => decide (¬ szOf env.sizeOut e > limit))).map
        (fun e => okMsg e (szOf env.sizeOut e)) ∧
    (finishGate env limit elfs outPath).stderrLog =
      (elfs.filter (fun e => decide (szOf env.sizeOut e > limit))).map
        (fun e => failMsg e (szOf env.sizeOut e) limit) := by
  rw [finishGate_ok env limit elfs outPath hok]
  refine ⟨?_, rfl, rfl⟩
  by_cases h : elfs.any (fun e => decide (szOf env.sizeOut e > limit))
  · rw [if_pos h]
    constructor
    · intro _
      obtain ⟨e, he, hd⟩ := List.any_eq_true.mp h
      exact ⟨e, he, of_decide_eq_true hd⟩
    · intro _
      rfl
  · rw [if_neg h]
    constructor
    · intro hc
      cases hc
    · intro ⟨e, he, hgt⟩
      exact absurd (List.any_eq_true.mpr ⟨e, he, decide_eq_true hgt⟩) h

/-- C4: when every artifact sizes successfully (and at least one is
gathered), the gate writes the maximum measured footprint as decimal
text plus newline to the output/stamp path, both when it returns 0 and
when it returns the over-limit status 1 — in explicit-list mode
(conjunct one) and in directory-sweep mode (conjunct two).  The
nonnegativity hypothesis reflects that avr-size section sizes are
nonnegative (the code seeds its running maximum with 0). -/
theorem claim_C4 :
    (∀ (env : GateEnv) (limit : Int) (output : Option String) (pos : List String),
      2 ≤ pos.length →
      (∀ e ∈ pos.dropLast, ∃ v, flash_usage (env.sizeOut e) = .ok v) →
      (∀ e ∈ pos.dropLast, 0 ≤ szOf env.sizeOut e) →
      ∃ st M, (st = 0 ∨ st = 1) ∧
        (mainGate env limit none output pos).halt = .ret st ∧
        (mainGate env limit none output pos).stamp =
          some (output.getD (pos.getLastD ""), toString M ++ "\n") ∧
        M ∈ pos.dropLast.map (szOf env.sizeOut) ∧
        ∀ v ∈ pos.dropLast.map (szOf env.sizeOut), v ≤ M) ∧
    (∀ (env : GateEnv) (limit : Int) (output : Option String) (pos : List String)
        (d : String),
      env.elfsUnder d ≠ [] →
      (∀ e ∈ env.elfsUnder d, ∃ v, flash_usage (env.sizeOut e) = .ok v) →
      (∀ e ∈ env.elfsUnder d, 0 ≤ szOf env.sizeOut e) →
      ∃ st M, (st = 0 ∨ st = 1) ∧
        (mainGate env limit (some d) output pos).halt = .ret st ∧
        (mainGate env limit (some d) output pos).stamp =
          some (output.getD (pjoin d "size_gate.txt"), toString M ++ "\n") ∧
        M ∈ (env.elfsUnder d).map (szOf env.sizeOut) ∧
        ∀ v ∈ (env.elfsUnder d).map (szOf env.sizeOut), v ≤ M) := by
  constructor
  · intro env limit output pos h2 hok hnn
    rw [mainGate_explicit env limit output pos h2]
    refine finishGate_max env limit pos.dropLast _ ?_ hok hnn
    have hlen : pos.dropLast.length = pos.length - 1 := List.length_dropLast pos
    intro hc
    rw [hc] at hlen
    simp at hlen
    omega
  · intro env limit output pos d hne hok hnn
    rw [mainGate_sweep env limit output pos d hne]
    exact finishGate_max env limit (env.elfsUnder d) _ hne hok hnn

theorem claim_C4_witness :
    2 ≤ (["a.elf", "stamp"] : List String).length ∧
    (∃ st M, (st = 0 ∨ st = 1) ∧
      (mainGate ⟨fun _ => ["h", "100 20 0 120 78"], fun _ => []⟩ 30720 none none
        ["a.elf", "stamp"]).halt = .ret st ∧
      (mainGate ⟨fun _ => ["h", "100 20 0 120 78"], fun _ => []⟩ 30720 none none
        ["a.elf", "stamp"]).stamp =
        some ((none : Option String).getD ((["a.elf", "stamp"] : List String).getLastD ""),
          toString M ++ "\n") ∧
      M ∈ (["a.elf", "stamp"] : List String).dropLast.map
        (szOf (fun _ => ["h", "100 20 0 120 78"])) ∧
      ∀ v ∈ (["a.elf", "stamp"] : List String).dropLast.map
        (szOf (fun _ => ["h", "100 20 0 120 78"])), v ≤ M) :=
  ⟨by decide,
   claim_C4.1 ⟨fun _ => ["h", "100 20 0 120 78"], fun _ => []⟩ 30720 none
     ["a.elf", "stamp"] (by decide)
     (fun e _ => ⟨120, by rfl⟩)
     (fun e _ => by change (0 : Int) ≤ 120; decide)⟩

/-- C5: with at least one artifact and all sizings successful, the gate
returns status 1 iff some artifact's footprint strictly exceeds the
limit; processing is not fail-fast: the stderr log contains one
diagnostic per over-limit artifact and the stdout log one passing line
per within-limit artifact, in both invocation modes. -/
theorem claim_C5 :
    (∀ (env : GateEnv) (limit : Int) (output : Option String) (pos : List String),
      2 ≤ pos.length →
      (∀ e ∈ pos.dropLast, ∃ v, flash_usage (env.sizeOut e) = .ok v) →
      ((mainGate env limit none output pos).halt = .ret 1 ↔
        ∃ e ∈ pos.dropLast, szOf env.sizeOut e > limit) ∧
      (mainGate env limit none output pos).stdoutLog =
        (pos.dropLast.filter (fun e => decide (¬ szOf env.sizeOut e > limit))).map
          (fun e => okMsg e (szOf env.sizeOut e)) ∧
      (mainGate env limit none output pos).stderrLog =
        (pos.dropLast.filter (fun e => decide (szOf env.sizeOut e > limit))).map
          (fun e => failMsg e (szOf env.sizeOut e) limit)) ∧
    (∀ (env : GateEnv) (limit : Int) (output : Option String) (pos : List String)
        (d : String),
      env.elfsUnder d ≠ [] →
      (∀ e ∈ env.elfsUnder d, ∃ v, flash_usage (env.sizeOut e) = .ok v) →
      ((mainGate env limit (some d) output pos).halt = .ret 1 ↔
        ∃ e ∈ env.elfsUnder d, szOf env.sizeOut e > limit) ∧
      (mainGate env limit (some d) output pos).stdoutLog =
        ((env.elfsUnder d).filter (fun e => decide (¬ szOf env.sizeOut e > limit))).map
          (fun e => okMsg e (szOf env.sizeOut e)) ∧
      (mainGate env limit (some d) output pos).stderrLog =
        ((env.elfsUnder d).filter (fun e => decide (szOf env.sizeOut e > limit))).map
          (fun e => failMsg e (szOf env.sizeOut e) limit)) := by
  constructor
  · intro env limit output pos h2 hok
    rw [mainGate_explicit env limit output pos h2]
    exact finishGate_status env limit pos.dropLast _ hok
  · intro env limit output pos d hne hok
    rw [mainGate_sweep env limit output pos d hne]
    exact finishGate_status env limit (env.elfsUnder d) _ hok

theorem claim_C5_witness :
    ((mainGate ⟨fun _ => ["h", "100 20 0 120 78"], fun _ => []⟩ 100 none none
        ["a.elf", "stamp"]).halt = .ret 1 ↔
      ∃ e ∈ (["a.elf", "stamp"] : List String).dropLast,
        szOf (fun _ => ["h", "100 20 0 120 78"]) e > 100) ∧
    (mainGate ⟨fun _ => ["h", "100 20 0 120 78"], fun _ => []⟩ 100 none none
        ["a.elf", "stamp"]).stdoutLog =
      ((["a.elf", "stamp"] : List String).dropLast.filter
        (fun e => decide (¬ szOf (fun _ => ["h", "100 20 0 120 78"]) e > 100))).map
        (fun e => okMsg e (szOf (fun _ => ["h", "100 20 0 120 78"]) e)) ∧
    (mainGate ⟨fun _ => ["h", "100 20 0 120 78"], fun _ => []⟩ 100 none none
        ["a.elf", "stamp"]).stderrLog =
      ((["a.elf", "stamp"] : List String).dropLast.filter
        (fun e => decide (szOf (fun _ => ["h", "100 20 0 120 78"]) e > 100))).map
        (fun e => failMsg e (szOf (fun _ => ["h", "100 20 0 120 78"]) e) 100) :=
  claim_C5.1 ⟨fun _ => ["h", "100 20 0 120 78"], fun _ => []⟩ 100 none
    ["a.elf", "stamp"] (by decide) (fun e _ => ⟨120, by rfl⟩)

/-- C8: in directory-sweep mode, finding zero `*.elf` binaries is a
hard failure (status 1, diagnostic on stderr) with no stamp write — an
outcome distinct from a size-limit failure, which always writes the
stamp file. -/
theorem claim_C8 :
    (∀ (env : GateEnv) (limit : Int) (output : Option String) (pos : List String)
        (d : String), env.elfsUnder d = [] →
      mainGate env limit (some d) output pos = ⟨.ret 1, none, [], [noElfMsg d]⟩) ∧
    (∀ (env : GateEnv) (limit : Int) (output : Option String) (pos : List String)
        (d : String), env.elfsUnder d ≠ [] →
      (∀ e ∈ env.elfsUnder d, ∃ v, flash_usage (env.sizeOut e) = .ok v) →
      ∃ pth txt, (mainGate env limit (some d) output pos).stamp = some (pth, txt)) ∧
    (∀ (d : String) (r : GateResult), r.stamp.isSome →
      GateResult.mk (.ret 1) none [] [noElfMsg d] ≠ r) := by
  refine ⟨?_, ?_, ?_⟩
  · intro env limit output pos d hE
    simp [mainGate, hE]
  · intro env limit output pos d hne hok
    rw [mainGate_sweep env limit output pos d hne,
      finishGate_ok env limit (env.elfsUnder d) _ hok]
    exact ⟨_, _, rfl⟩
  · intro d r hs h
    rw [← h] at hs
    simp at hs

theorem claim_C8_witness :
    mainGate ⟨fun _ => [], fun _ => []⟩ 100 (some "/b") none [] =
      ⟨.ret 1, none, [], [noElfMsg "/b"]⟩ ∧
    (∃ pth txt,
      (mainGate ⟨fun _ => ["h", "100 20 0 120 78"], fun _ => ["a.elf"]⟩ 100
        (some "/b") none []).stamp = some (pth, txt)) :=
  ⟨claim_C8.1 ⟨fun _ => [], fun _ => []⟩ 100 none [] "/b" (by rfl),
   claim_C8.2.1 ⟨fun _ => ["h", "100 20 0 120 78"], fun _ => ["a.elf"]⟩ 100 none []
     "/b" (by decide) (fun e _ => ⟨120, by rfl⟩)⟩

end Avrix
